import Mathlib

/-!
Verification of the del/add delta-encoding core
(src/milli/src/update/del_add.rs).

The development has two layers, each a direct transcription of the source:

* a logical layer, where an obkv record is the list of (key, value) pairs a
  KvReader iterates over and a KvWriter is the list of entries inserted into
  it (the byte serialization being the external ordered-record collaborator);
* a byte/sink layer, where the outer KvWriter writes serialized bytes through
  a caller-supplied io::Write sink that may reject a write, used for the
  failure-propagation and buffer-reuse claims.  The serialization details of
  the external obkv container are modelled from the spec (wire format: fixed
  width key bytes followed by the length-prefixed nested value bytes).
-/

/-- The DelAdd enum from del_add.rs: a two-variant discriminant,
Deletion = 0, Addition = 1 (repr u8). -/
inductive DelAdd : Type where
  | Deletion : DelAdd
  | Addition : DelAdd
deriving DecidableEq, Repr

/-- The value of the Rust cast of a DelAdd value to u8: its discriminant. -/
def DelAdd.asU8 : DelAdd → ℕ
  | .Deletion => 0
  | .Addition => 1

/-- DelAdd.to_be_bytes from the Key impl: u8 to_be_bytes of the cast,
a single-byte array (BYTES_SIZE = size_of DelAdd = 1). -/
def DelAdd.to_be_bytes (t : DelAdd) : List ℕ := [t.asU8]

/-- DelAdd.from_be_bytes from the Key impl: byte 0 decodes to Deletion,
byte 1 to Addition, and any other byte hits the unreachable! arm, which
is a fatal trap, modelled as none. -/
def DelAdd.from_be_bytes : ℕ → Option DelAdd
  | 0 => some .Deletion
  | 1 => some .Addition
  | _ => none

/-- The derived PartialOrd on the fieldless DelAdd enum: it compares
discriminants, so Deletion comes strictly before Addition. -/
def DelAdd.lt (a b : DelAdd) : Prop := a.asU8 < b.asU8

instance : DecidableRel DelAdd.lt := fun a b => Nat.decLt a.asU8 b.asU8

section Records

variable {K : Type} [LinearOrder K] {V : Type}

/-- The precondition on an obkv record (KvReader contents): field keys are
strictly ascending, hence unique. -/
def sortedAndUnique (l : List (K × V)) : Prop :=
  (l.map Prod.fst).Pairwise (· < ·)

/-- The nested record built in value_buffer by the loop body of
into_del_add_obkv: the value behind a Deletion key if deletion is set, then
behind an Addition key if addition is set. -/
def nestedEntries (deletion addition : Bool) (v : V) : List (DelAdd × V) :=
  (if deletion then [(DelAdd.Deletion, v)] else []) ++
    (if addition then [(DelAdd.Addition, v)] else [])

/-- into_del_add_obkv from del_add.rs, logical layer: for each (key, value)
of the reader, in order, insert (key, nested record for the flags) into the
output writer. -/
def into_del_add_obkv (reader : List (K × V)) (deletion addition : Bool) :
    List (K × List (DelAdd × V)) :=
  reader.map fun kv => (kv.1, nestedEntries deletion addition kv.2)

/-- del_add_from_two_obkvs from del_add.rs, logical layer: the
itertools merge_join_by walk over the two readers, comparing current keys.
A strictly smaller deletion key yields a Left step (Deletion entry alone), a
strictly smaller addition key a Right step (Addition entry alone), and equal
keys a Both step (Deletion entry then Addition entry), advancing the
consumed side(s). -/
def del_add_from_two_obkvs :
    List (K × V) → List (K × V) → List (K × List (DelAdd × V))
  | [], [] => []
  | [], (ka, va) :: a =>
      (ka, [(DelAdd.Addition, va)]) :: del_add_from_two_obkvs [] a
  | (kd, vd) :: d, [] =>
      (kd, [(DelAdd.Deletion, vd)]) :: del_add_from_two_obkvs d []
  | (kd, vd) :: d, (ka, va) :: a =>
      if kd < ka then
        (kd, [(DelAdd.Deletion, vd)]) :: del_add_from_two_obkvs d ((ka, va) :: a)
      else if ka < kd then
        (ka, [(DelAdd.Addition, va)]) :: del_add_from_two_obkvs ((kd, vd) :: d) a
      else
        (kd, [(DelAdd.Deletion, vd), (DelAdd.Addition, va)]) ::
          del_add_from_two_obkvs d a
termination_by d a => d.length + a.length

end Records

instance {K V : Type} [LinearOrder K] (l : List (K × V)) :
    Decidable (sortedAndUnique l) :=
  inferInstanceAs (Decidable ((l.map Prod.fst).Pairwise (· < ·)))

/-- Modelled from the spec: the external key codec capability, a fixed-width
order-preserving big-endian byte encoding of field keys (two bytes here). -/
def keyBytes (k : ℕ) : List ℕ := [k / 256 % 256, k % 256]

/-- Modelled from the spec: the length prefix the ordered record writer puts
before value bytes (four bytes, big-endian). -/
def lenBytes (n : ℕ) : List ℕ :=
  [n / 16777216 % 256, n / 65536 % 256, n / 256 % 256, n % 256]

/-- Modelled from the spec: the bytes of a nested tagged value, a sequence of
(tag byte, length-prefixed value bytes) pairs, as built in value_buffer by
the inner KvWriterDelAdd, whose in-memory Vec sink accepts every write. -/
def serializeNested (entries : List (DelAdd × List ℕ)) : List ℕ :=
  (entries.map fun e => e.1.to_be_bytes ++ lenBytes e.2.length ++ e.2).flatten

/-- Modelled from the spec: the bytes one outer writer insert appends for a
field key and its nested tagged value: key bytes then length-prefixed nested
value bytes (the wire format of the external ordered record container). -/
def entryBytes (k : ℕ) (nested : List (DelAdd × List ℕ)) : List ℕ :=
  keyBytes k ++ lenBytes (serializeNested nested).length ++ serializeNested nested

/-- Modelled from the spec: the underlying byte sink behind the outer
KvWriter.  A write of given bytes onto the current contents may be rejected
(a Write failure), and the final flush performed by finish may be rejected
as well; both rejections stand for the sink returning an Err value. -/
structure ByteSink : Type where
  rejectWrite : List ℕ → List ℕ → Bool
  rejectFlush : List ℕ → Bool

/-- Outcome of a writer-backed operation: the final sink contents on success,
an ordinary error value (an Err return), or a trap (a panic from unwrap). -/
inductive WOut : Type where
  | ok : List ℕ → WOut
  | err : WOut
  | panicked : WOut
deriving DecidableEq, Repr

/-- The in-memory Vec sink of the source: accepts every write and flush. -/
def vecSink : ByteSink := ⟨fun _ _ => false, fun _ => false⟩

/-- A sink that rejects every write, to exhibit a Write failure. -/
def rejectAllSink : ByteSink := ⟨fun _ _ => true, fun _ => false⟩

/-- A sink that accepts every write but rejects the final flush. -/
def rejectFlushSink : ByteSink := ⟨fun _ _ => false, fun _ => true⟩

/-- into_del_add_obkv, byte/sink layer: the loop of into_del_add_obkv
writing through the caller-supplied sink, starting from whatever the buffer
already holds (the source never clears it).  Every fallible call in the
source is propagated with the question-mark operator, so a rejected write
yields err; after the loop, writer.finish flushes the sink. -/
def into_del_add_obkv_sink (s : ByteSink) (deletion addition : Bool) :
    List (ℕ × List ℕ) → List ℕ → WOut
  | [], buf => if s.rejectFlush buf then .err else .ok buf
  | (k, v) :: rest, buf =>
      let entry := entryBytes k (nestedEntries deletion addition v)
      if s.rejectWrite buf entry then .err
      else into_del_add_obkv_sink s deletion addition rest (buf ++ entry)

/-- del_add_from_two_obkvs, byte/sink layer: the merge_join_by loop writing
through the caller-supplied sink, starting from whatever the buffer already
holds.  The outer writer insert calls are unwrapped in the source, so a
rejected insert write traps (panicked); only writer.finish after the loop
propagates a failure as an ordinary err.  The inner value_buffer writers use
in-memory Vec sinks, so their insert and into_inner calls cannot fail. -/
def del_add_from_two_obkvs_sink (s : ByteSink) :
    List (ℕ × List ℕ) → List (ℕ × List ℕ) → List ℕ → WOut
  | [], [], buf => if s.rejectFlush buf then .err else .ok buf
  | [], (ka, va) :: a, buf =>
      let entry := entryBytes ka [(DelAdd.Addition, va)]
      if s.rejectWrite buf entry then .panicked
      else del_add_from_two_obkvs_sink s [] a (buf ++ entry)
  | (kd, vd) :: d, [], buf =>
      let entry := entryBytes kd [(DelAdd.Deletion, vd)]
      if s.rejectWrite buf entry then .panicked
      else del_add_from_two_obkvs_sink s d [] (buf ++ entry)
  | (kd, vd) :: d, (ka, va) :: a, buf =>
      if kd < ka then
        let entry := entryBytes kd [(DelAdd.Deletion, vd)]
        if s.rejectWrite buf entry then .panicked
        else del_add_from_two_obkvs_sink s d ((ka, va) :: a) (buf ++ entry)
      else if ka < kd then
        let entry := entryBytes ka [(DelAdd.Addition, va)]
        if s.rejectWrite buf entry then .panicked
        else del_add_from_two_obkvs_sink s ((kd, vd) :: d) a (buf ++ entry)
      else
        let entry := entryBytes kd [(DelAdd.Deletion, vd), (DelAdd.Addition, va)]
        if s.rejectWrite buf entry then .panicked
        else del_add_from_two_obkvs_sink s d a (buf ++ entry)
termination_by d a _ => d.length + a.length

/-- The serialized bytes into_del_add_obkv produces on a cleared buffer:
one outer entry per reader pair, in reader order. -/
def into_del_add_obkv_bytes (deletion addition : Bool)
    (reader : List (ℕ × List ℕ)) : List ℕ :=
  (reader.map fun kv => entryBytes kv.1 (nestedEntries deletion addition kv.2)).flatten

/-- The serialized bytes del_add_from_two_obkvs produces on a cleared
buffer: one outer entry per merged pair, in merge order. -/
def del_add_from_two_obkvs_bytes (D A : List (ℕ × List ℕ)) : List ℕ :=
  ((del_add_from_two_obkvs D A).map fun p => entryBytes p.1 p.2).flatten

section MergeLemmas

variable {K : Type} [LinearOrder K] {V : Type}

/-- Unfolding of the sortedness precondition at a cons cell. -/
theorem sortedAndUnique_cons {k : K} {v : V} {l : List (K × V)} :
    sortedAndUnique ((k, v) :: l) ↔
      (∀ x ∈ l.map Prod.fst, k < x) ∧ sortedAndUnique l := by
  simp [sortedAndUnique, List.pairwise_cons]

/-- A key appears in the merge output iff it appears in one of the inputs. -/
theorem del_add_keys_mem (D A : List (K × V)) :
    ∀ k : K, k ∈ (del_add_from_two_obkvs D A).map Prod.fst ↔
      k ∈ D.map Prod.fst ∨ k ∈ A.map Prod.fst := by
  induction D, A using del_add_from_two_obkvs.induct with
  | case1 => simp [del_add_from_two_obkvs]
  | case2 ka va a ih =>
      intro k
      simp only [del_add_from_two_obkvs, List.map_cons, List.mem_cons, ih k]
      simp
  | case3 kd vd d ih =>
      intro k
      simp only [del_add_from_two_obkvs, List.map_cons, List.mem_cons, ih k]
      simp
  | case4 kd vd d ka va a h ih =>
      intro k
      simp only [del_add_from_two_obkvs, if_pos h, List.map_cons, List.mem_cons,
        ih k]
      simp
      tauto
  | case5 kd vd d ka va a h1 h2 ih =>
      intro k
      simp only [del_add_from_two_obkvs, if_neg h1, if_pos h2, List.map_cons,
        List.mem_cons, ih k]
      simp
      tauto
  | case6 kd vd d ka va a h1 h2 ih =>
      intro k
      have hk : kd = ka := le_antisymm (not_lt.mp h2) (not_lt.mp h1)
      subst hk
      simp only [del_add_from_two_obkvs, if_neg h1, if_neg h2, List.map_cons,
        List.mem_cons, ih k]
      simp
      tauto

/-- Every nested record the merge emits has one of the three branch shapes. -/
theorem del_add_nested_shape (D A : List (K × V)) :
    ∀ p ∈ del_add_from_two_obkvs D A,
      (∃ v, p.2 = [(DelAdd.Deletion, v)]) ∨
      (∃ v, p.2 = [(DelAdd.Addition, v)]) ∨
      (∃ dv av, p.2 = [(DelAdd.Deletion, dv), (DelAdd.Addition, av)]) := by
  induction D, A using del_add_from_two_obkvs.induct with
  | case1 => simp [del_add_from_two_obkvs]
  | case2 ka va a ih =>
      intro p hp
      rcases List.mem_cons.mp (by simpa [del_add_from_two_obkvs] using hp)
        with rfl | hp
      · exact Or.inr (Or.inl ⟨va, rfl⟩)
      · exact ih p hp
  | case3 kd vd d ih =>
      intro p hp
      rcases List.mem_cons.mp (by simpa [del_add_from_two_obkvs] using hp)
        with rfl | hp
      · exact Or.inl ⟨vd, rfl⟩
      · exact ih p hp
  | case4 kd vd d ka va a h ih =>
      intro p hp
      rcases List.mem_cons.mp (by simpa [del_add_from_two_obkvs, if_pos h]
        using hp) with rfl | hp
      · exact Or.inl ⟨vd, rfl⟩
      · exact ih p hp
  | case5 kd vd d ka va a h1 h2 ih =>
      intro p hp
      rcases List.mem_cons.mp
        (by simpa [del_add_from_two_obkvs, if_neg h1, if_pos h2] using hp)
        with rfl | hp
      · exact Or.inr (Or.inl ⟨va, rfl⟩)
      · exact ih p hp
  | case6 kd vd d ka va a h1 h2 ih =>
      intro p hp
      rcases List.mem_cons.mp
        (by simpa [del_add_from_two_obkvs, if_neg h1, if_neg h2] using hp)
        with rfl | hp
      · exact Or.inr (Or.inr ⟨vd, va, rfl⟩)
      · exact ih p hp

/-- For sorted key-unique inputs, the merge output keys are strictly
ascending: at each step the emitted key is below every key of both
remaining inputs, hence below every later output key. -/
theorem del_add_keys_sorted (D A : List (K × V)) :
    sortedAndUnique D → sortedAndUnique A →
    ((del_add_from_two_obkvs D A).map Prod.fst).Pairwise (· < ·) := by
  induction D, A using del_add_from_two_obkvs.induct with
  | case1 => intro _ _; simp [del_add_from_two_obkvs]
  | case2 ka va a ih =>
      intro hD hA
      rcases sortedAndUnique_cons.mp hA with ⟨hbound, htail⟩
      simp only [del_add_from_two_obkvs, List.map_cons, List.pairwise_cons]
      refine ⟨fun x hx => ?_, ih hD htail⟩
      rcases (del_add_keys_mem ([] : List (K × V)) a x).mp hx with hm | hm
      · simp at hm
      · exact hbound x hm
  | case3 kd vd d ih =>
      intro hD hA
      rcases sortedAndUnique_cons.mp hD with ⟨hbound, htail⟩
      simp only [del_add_from_two_obkvs, List.map_cons, List.pairwise_cons]
      refine ⟨fun x hx => ?_, ih htail hA⟩
      rcases (del_add_keys_mem d ([] : List (K × V)) x).mp hx with hm | hm
      · exact hbound x hm
      · simp at hm
  | case4 kd vd d ka va a h ih =>
      intro hD hA
      rcases sortedAndUnique_cons.mp hD with ⟨hboundD, htailD⟩
      rcases sortedAndUnique_cons.mp hA with ⟨hboundA, _⟩
      simp only [del_add_from_two_obkvs, if_pos h, List.map_cons,
        List.pairwise_cons]
      refine ⟨fun x hx => ?_, ih htailD hA⟩
      rcases (del_add_keys_mem d ((ka, va) :: a) x).mp hx with hm | hm
      · exact hboundD x hm
      · rw [List.map_cons] at hm
        rcases List.mem_cons.mp hm with rfl | hm
        · exact h
        · exact lt_trans h (hboundA x hm)
  | case5 kd vd d ka va a h1 h2 ih =>
      intro hD hA
      rcases sortedAndUnique_cons.mp hD with ⟨hboundD, _⟩
      rcases sortedAndUnique_cons.mp hA with ⟨hboundA, htailA⟩
      simp only [del_add_from_two_obkvs, if_neg h1, if_pos h2, List.map_cons,
        List.pairwise_cons]
      refine ⟨fun x hx => ?_, ih hD htailA⟩
      rcases (del_add_keys_mem ((kd, vd) :: d) a x).mp hx with hm | hm
      · rw [List.map_cons] at hm
        rcases List.mem_cons.mp hm with rfl | hm
        · exact h2
        · exact lt_trans h2 (hboundD x hm)
      · exact hboundA x hm
  | case6 kd vd d ka va a h1 h2 ih =>
      intro hD hA
      have hk : kd = ka := le_antisymm (not_lt.mp h2) (not_lt.mp h1)
      subst hk
      rcases sortedAndUnique_cons.mp hD with ⟨hboundD, htailD⟩
      rcases sortedAndUnique_cons.mp hA with ⟨hboundA, htailA⟩
      simp only [del_add_from_two_obkvs, if_neg h1, if_neg h2, List.map_cons,
        List.pairwise_cons]
      refine ⟨fun x hx => ?_, ih htailD htailA⟩
      rcases (del_add_keys_mem d a x).mp hx with hm | hm
      · exact hboundD x hm
      · exact hboundA x hm

/-- A key carried by both sorted inputs is emitted with the Both branch
nested record: the Deletion value then the Addition value. -/
theorem del_add_mem_both (D A : List (K × V)) :
    sortedAndUnique D → sortedAndUnique A →
    ∀ k dv av, (k, dv) ∈ D → (k, av) ∈ A →
      (k, [(DelAdd.Deletion, dv), (DelAdd.Addition, av)]) ∈
        del_add_from_two_obkvs D A := by
  induction D, A using del_add_from_two_obkvs.induct with
  | case1 =>
      intro _ _ k dv av hd _
      simp at hd
  | case2 ka va a ih =>
      intro _ _ k dv av hd _
      simp at hd
  | case3 kd vd d ih =>
      intro _ _ k dv av _ ha
      simp at ha
  | case4 kd vd d ka va a h ih =>
      intro hD hA k dv av hd ha
      rcases sortedAndUnique_cons.mp hD with ⟨_, htailD⟩
      rcases sortedAndUnique_cons.mp hA with ⟨hboundA, _⟩
      have hd2 : (k, dv) ∈ d := by
        rcases List.mem_cons.mp hd with heq | hmem
        · exfalso
          obtain ⟨rfl, rfl⟩ := Prod.mk.injEq .. ▸ heq
          rcases List.mem_cons.mp ha with heq2 | hmem2
          · exact absurd (congrArg Prod.fst heq2) (ne_of_lt h)
          · exact lt_asymm h (hboundA _ (List.mem_map_of_mem Prod.fst hmem2))
        · exact hmem
      simp only [del_add_from_two_obkvs, if_pos h]
      exact List.mem_cons_of_mem _ (ih htailD hA k dv av hd2 ha)
  | case5 kd vd d ka va a h1 h2 ih =>
      intro hD hA k dv av hd ha
      rcases sortedAndUnique_cons.mp hD with ⟨hboundD, _⟩
      rcases sortedAndUnique_cons.mp hA with ⟨_, htailA⟩
      have ha2 : (k, av) ∈ a := by
        rcases List.mem_cons.mp ha with heq | hmem
        · exfalso
          obtain ⟨rfl, rfl⟩ := Prod.mk.injEq .. ▸ heq
          rcases List.mem_cons.mp hd with heq2 | hmem2
          · exact absurd (congrArg Prod.fst heq2) (ne_of_lt h2)
          · exact lt_asymm h2 (hboundD _ (List.mem_map_of_mem Prod.fst hmem2))
        · exact hmem
      simp only [del_add_from_two_obkvs, if_neg h1, if_pos h2]
      exact List.mem_cons_of_mem _ (ih hD htailA k dv av hd ha2)
  | case6 kd vd d ka va a h1 h2 ih =>
      intro hD hA k dv av hd ha
      have hk : kd = ka := le_antisymm (not_lt.mp h2) (not_lt.mp h1)
      subst hk
      rcases sortedAndUnique_cons.mp hD with ⟨hboundD, htailD⟩
      rcases sortedAndUnique_cons.mp hA with ⟨hboundA, htailA⟩
      simp only [del_add_from_two_obkvs, if_neg h1, if_neg h2]
      by_cases hkk : k = kd
      · subst hkk
        have hdv : dv = vd := by
          rcases List.mem_cons.mp hd with heq | hmem
          · exact congrArg Prod.snd heq
          · exact absurd (hboundD k (List.mem_map_of_mem Prod.fst hmem))
              (lt_irrefl k)
        have hav : av = va := by
          rcases List.mem_cons.mp ha with heq | hmem
          · exact congrArg Prod.snd heq
          · exact absurd (hboundA k (List.mem_map_of_mem Prod.fst hmem))
              (lt_irrefl k)
        subst hdv
        subst hav
        exact List.mem_cons_self _ _
      · have hd2 : (k, dv) ∈ d := by
          rcases List.mem_cons.mp hd with heq | hmem
          · exact absurd (congrArg Prod.fst heq) hkk
          · exact hmem
        have ha2 : (k, av) ∈ a := by
          rcases List.mem_cons.mp ha with heq | hmem
          · exact absurd (congrArg Prod.fst heq) hkk
          · exact hmem
        exact List.mem_cons_of_mem _ (ih htailD htailA k dv av hd2 ha2)

/-- A key carried only by the sorted deletion input is emitted with the
Left branch nested record: its Deletion value alone. -/
theorem del_add_mem_left (D A : List (K × V)) :
    sortedAndUnique D → sortedAndUnique A →
    ∀ k dv, (k, dv) ∈ D → k ∉ A.map Prod.fst →
      (k, [(DelAdd.Deletion, dv)]) ∈ del_add_from_two_obkvs D A := by
  induction D, A using del_add_from_two_obkvs.induct with
  | case1 =>
      intro _ _ k dv hd _
      simp at hd
  | case2 ka va a ih =>
      intro _ _ k dv hd _
      simp at hd
  | case3 kd vd d ih =>
      intro hD hA k dv hd hk
      rcases sortedAndUnique_cons.mp hD with ⟨_, htailD⟩
      simp only [del_add_from_two_obkvs]
      rcases List.mem_cons.mp hd with heq | hmem
      · obtain ⟨rfl, rfl⟩ := Prod.mk.injEq .. ▸ heq
        exact List.mem_cons_self _ _
      · exact List.mem_cons_of_mem _ (ih htailD hA k dv hmem hk)
  | case4 kd vd d ka va a h ih =>
      intro hD hA k dv hd hk
      rcases sortedAndUnique_cons.mp hD with ⟨_, htailD⟩
      simp only [del_add_from_two_obkvs, if_pos h]
      rcases List.mem_cons.mp hd with heq | hmem
      · obtain ⟨rfl, rfl⟩ := Prod.mk.injEq .. ▸ heq
        exact List.mem_cons_self _ _
      · exact List.mem_cons_of_mem _ (ih htailD hA k dv hmem hk)
  | case5 kd vd d ka va a h1 h2 ih =>
      intro hD hA k dv hd hk
      rcases sortedAndUnique_cons.mp hA with ⟨_, htailA⟩
      have hk2 : k ∉ a.map Prod.fst := fun hmem =>
        hk (by rw [List.map_cons]; exact List.mem_cons_of_mem _ hmem)
      simp only [del_add_from_two_obkvs, if_neg h1, if_pos h2]
      exact List.mem_cons_of_mem _ (ih hD htailA k dv hd hk2)
  | case6 kd vd d ka va a h1 h2 ih =>
      intro hD hA k dv hd hk
      have hka : kd = ka := le_antisymm (not_lt.mp h2) (not_lt.mp h1)
      subst hka
      rcases sortedAndUnique_cons.mp hD with ⟨_, htailD⟩
      rcases sortedAndUnique_cons.mp hA with ⟨_, htailA⟩
      have hne : k ≠ kd := fun heq =>
        hk (by rw [List.map_cons, heq]; exact List.mem_cons_self _ _)
      have hd2 : (k, dv) ∈ d := by
        rcases List.mem_cons.mp hd with heq | hmem
        · exact absurd (congrArg Prod.fst heq) hne
        · exact hmem
      have hk2 : k ∉ a.map Prod.fst := fun hmem =>
        hk (by rw [List.map_cons]; exact List.mem_cons_of_mem _ hmem)
      simp only [del_add_from_two_obkvs, if_neg h1, if_neg h2]
      exact List.mem_cons_of_mem _ (ih htailD htailA k dv hd2 hk2)

/-- A key carried only by the sorted addition input is emitted with the
Right branch nested record: its Addition value alone. -/
theorem del_add_mem_right (D A : List (K × V)) :
    sortedAndUnique D → sortedAndUnique A →
    ∀ k av, (k, av) ∈ A → k ∉ D.map Prod.fst →
      (k, [(DelAdd.Addition, av)]) ∈ del_add_from_two_obkvs D A := by
  induction D, A using del_add_from_two_obkvs.induct with
  | case1 =>
      intro _ _ k av ha _
      simp at ha
  | case2 ka va a ih =>
      intro hD hA k av ha hk
      rcases sortedAndUnique_cons.mp hA with ⟨_, htailA⟩
      simp only [del_add_from_two_obkvs]
      rcases List.mem_cons.mp ha with heq | hmem
      · obtain ⟨rfl, rfl⟩ := Prod.mk.injEq .. ▸ heq
        exact List.mem_cons_self _ _
      · exact List.mem_cons_of_mem _ (ih hD htailA k av hmem hk)
  | case3 kd vd d ih =>
      intro _ _ k av ha _
      simp at ha
  | case4 kd vd d ka va a h ih =>
      intro hD hA k av ha hk
      rcases sortedAndUnique_cons.mp hD with ⟨_, htailD⟩
      have hk2 : k ∉ d.map Prod.fst := fun hmem =>
        hk (by rw [List.map_cons]; exact List.mem_cons_of_mem _ hmem)
      simp only [del_add_from_two_obkvs, if_pos h]
      exact List.mem_cons_of_mem _ (ih htailD hA k av ha hk2)
  | case5 kd vd d ka va a h1 h2 ih =>
      intro hD hA k av ha hk
      rcases sortedAndUnique_cons.mp hA with ⟨_, htailA⟩
      simp only [del_add_from_two_obkvs, if_neg h1, if_pos h2]
      rcases List.mem_cons.mp ha with heq | hmem
      · obtain ⟨rfl, rfl⟩ := Prod.mk.injEq .. ▸ heq
        exact List.mem_cons_self _ _
      · exact List.mem_cons_of_mem _ (ih hD htailA k av hmem hk)
  | case6 kd vd d ka va a h1 h2 ih =>
      intro hD hA k av ha hk
      have hka : kd = ka := le_antisymm (not_lt.mp h2) (not_lt.mp h1)
      subst hka
      rcases sortedAndUnique_cons.mp hD with ⟨_, htailD⟩
      rcases sortedAndUnique_cons.mp hA with ⟨_, htailA⟩
      have hne : k ≠ kd := fun heq =>
        hk (by rw [List.map_cons, heq]; exact List.mem_cons_self _ _)
      have ha2 : (k, av) ∈ a := by
        rcases List.mem_cons.mp ha with heq | hmem
        · exact absurd (congrArg Prod.fst heq) hne
        · exact hmem
      have hk2 : k ∉ d.map Prod.fst := fun hmem =>
        hk (by rw [List.map_cons]; exact List.mem_cons_of_mem _ hmem)
      simp only [del_add_from_two_obkvs, if_neg h1, if_neg h2]
      exact List.mem_cons_of_mem _ (ih htailD htailA k av ha2 hk2)

end MergeLemmas

/-- C7: the Tag type has exactly the two values Deletion and Addition, with
discriminants 0 and 1; to_be_bytes is the single byte equal to the
discriminant; and Deletion is strictly below Addition both in the derived
order on tags and on the encoded bytes. -/
theorem C7_tag_shape :
    (∀ t : DelAdd, t = DelAdd.Deletion ∨ t = DelAdd.Addition) ∧
    (DelAdd.Deletion.asU8 = 0 ∧ DelAdd.Addition.asU8 = 1) ∧
    (∀ t : DelAdd, t.to_be_bytes = [t.asU8] ∧ t.to_be_bytes.length = 1) ∧
    DelAdd.lt DelAdd.Deletion DelAdd.Addition ∧
    (∀ b0 ∈ DelAdd.Deletion.to_be_bytes, ∀ b1 ∈ DelAdd.Addition.to_be_bytes,
      b0 < b1) := by
  refine ⟨fun t => ?_, ⟨rfl, rfl⟩, fun t => ⟨rfl, rfl⟩, by decide, by decide⟩
  cases t <;> simp

/-- Witness for C7: concrete uses of the universally quantified parts. -/
theorem C7_tag_shape_witness :
    DelAdd.Addition = DelAdd.Deletion ∨ DelAdd.Addition = DelAdd.Addition :=
  C7_tag_shape.1 DelAdd.Addition

/-- C3: the tag codec round-trips on bytes 0 and 1 (Deletion for 0, Addition
for 1, and decoding the encoding of any tag returns it), and decoding any
byte outside 0 and 1 hits the fatal unreachable! arm instead of returning a
tag. -/
theorem C3_tag_roundtrip :
    (DelAdd.from_be_bytes 0 = some DelAdd.Deletion ∧
      DelAdd.from_be_bytes 1 = some DelAdd.Addition) ∧
    (∀ t : DelAdd, DelAdd.from_be_bytes t.asU8 = some t) ∧
    (∀ b : ℕ, b ≠ 0 → b ≠ 1 → DelAdd.from_be_bytes b = none) := by
  refine ⟨⟨rfl, rfl⟩, fun t => ?_, fun b h0 h1 => ?_⟩
  · cases t <;> rfl
  · match b, h0, h1 with
    | n + 2, _, _ => rfl

/-- Witness for C3: decoding the out-of-range byte 7 fails fatally. -/
theorem C3_tag_roundtrip_witness : DelAdd.from_be_bytes 7 = none :=
  C3_tag_roundtrip.2.2 7 (by decide) (by decide)

/-- Each entry of a nested record built by the annotator holds the
annotated value. -/
theorem nestedEntries_snd {V : Type} (deletion addition : Bool) (v : V) :
    ∀ e ∈ nestedEntries deletion addition v, e.2 = v := by
  cases deletion <;> cases addition <;> simp [nestedEntries]

/-- A nested record built by the annotator has one entry per set flag. -/
theorem nestedEntries_length {V : Type} (deletion addition : Bool) (v : V) :
    (nestedEntries deletion addition v).length =
      (if deletion then 1 else 0) + (if addition then 1 else 0) := by
  cases deletion <;> cases addition <;> simp [nestedEntries]

/-- A nested record built by the annotator lists its tags in ascending
order (Deletion before Addition). -/
theorem nestedEntries_tags {V : Type} (deletion addition : Bool) (v : V) :
    ((nestedEntries deletion addition v).map Prod.fst).Pairwise DelAdd.lt := by
  cases deletion <;> cases addition <;>
    simp [nestedEntries, DelAdd.lt, DelAdd.asU8]

/-- C1: for sorted key-unique records D and A, the merge output carries
each key of either input exactly once; a key in both inputs gets the nested
record with its Deletion value then its Addition value, a key only in D its
Deletion value alone, and a key only in A its Addition value alone. -/
theorem C1_merge_union {K V : Type} [LinearOrder K] (D A : List (K × V))
    (hD : sortedAndUnique D) (hA : sortedAndUnique A) :
    (∀ k : K, k ∈ (del_add_from_two_obkvs D A).map Prod.fst ↔
        k ∈ D.map Prod.fst ∨ k ∈ A.map Prod.fst) ∧
    ((del_add_from_two_obkvs D A).map Prod.fst).Nodup ∧
    (∀ k dv av, (k, dv) ∈ D → (k, av) ∈ A →
      (k, [(DelAdd.Deletion, dv), (DelAdd.Addition, av)]) ∈
        del_add_from_two_obkvs D A) ∧
    (∀ k dv, (k, dv) ∈ D → k ∉ A.map Prod.fst →
      (k, [(DelAdd.Deletion, dv)]) ∈ del_add_from_two_obkvs D A) ∧
    (∀ k av, (k, av) ∈ A → k ∉ D.map Prod.fst →
      (k, [(DelAdd.Addition, av)]) ∈ del_add_from_two_obkvs D A) :=
  ⟨del_add_keys_mem D A,
    (del_add_keys_sorted D A hD hA).imp fun h => ne_of_lt h,
    del_add_mem_both D A hD hA, del_add_mem_left D A hD hA,
    del_add_mem_right D A hD hA⟩

/-- Witness for C1 at Scenario 1 of the spec: key 3 is in both inputs and
gets both values. -/
theorem C1_merge_union_witness :
    ((3:ℕ), [(DelAdd.Deletion, (30:ℕ)), (DelAdd.Addition, 31)]) ∈
      del_add_from_two_obkvs [((1:ℕ), (10:ℕ)), (3, 30)] [(2, 20), (3, 31)] :=
  (C1_merge_union [((1:ℕ), (10:ℕ)), (3, 30)] [(2, 20), (3, 31)]
    (by decide) (by decide)).2.2.1 3 30 31 (by decide) (by decide)

/-- C2: for sorted key-unique inputs, the merge output keys are strictly
ascending with no duplicates, and the output length is the cardinality of
the union of the input key sets. -/
theorem C2_merge_sorted_size {K V : Type} [LinearOrder K] [DecidableEq K]
    (D A : List (K × V)) (hD : sortedAndUnique D) (hA : sortedAndUnique A) :
    ((del_add_from_two_obkvs D A).map Prod.fst).Pairwise (· < ·) ∧
    ((del_add_from_two_obkvs D A).map Prod.fst).Nodup ∧
    (del_add_from_two_obkvs D A).length =
      ((D.map Prod.fst).toFinset ∪ (A.map Prod.fst).toFinset).card := by
  have hs := del_add_keys_sorted D A hD hA
  have hnd : ((del_add_from_two_obkvs D A).map Prod.fst).Nodup :=
    hs.imp fun h => ne_of_lt h
  refine ⟨hs, hnd, ?_⟩
  have hset : ((del_add_from_two_obkvs D A).map Prod.fst).toFinset =
      (D.map Prod.fst).toFinset ∪ (A.map Prod.fst).toFinset := by
    ext x
    simp only [List.mem_toFinset, Finset.mem_union]
    exact del_add_keys_mem D A x
  calc (del_add_from_two_obkvs D A).length
      = ((del_add_from_two_obkvs D A).map Prod.fst).length := by
        rw [List.length_map]
    _ = ((del_add_from_two_obkvs D A).map Prod.fst).toFinset.card := by
        rw [List.toFinset_card_of_nodup hnd]
    _ = _ := by rw [hset]

/-- Witness for C2 at Scenario 1 of the spec: three output entries for the
three distinct keys. -/
theorem C2_merge_sorted_size_witness :
    (del_add_from_two_obkvs [((1:ℕ), (10:ℕ)), (3, 30)] [(2, 20), (3, 31)]).length =
      (([((1:ℕ), (10:ℕ)), (3, 30)].map Prod.fst).toFinset ∪
        ([((2:ℕ), (20:ℕ)), (3, 31)].map Prod.fst).toFinset).card :=
  (C2_merge_sorted_size [((1:ℕ), (10:ℕ)), (3, 30)] [(2, 20), (3, 31)]
    (by decide) (by decide)).2.2

/-- C4: the annotator keeps the field keys of the input in the same order,
and each nested record has exactly one entry per set flag, every entry
holding the value the key has in the input. -/
theorem C4_annotator_keys {K V : Type} [LinearOrder K] (R : List (K × V))
    (deletion addition : Bool) (_hR : sortedAndUnique R) :
    (into_del_add_obkv R deletion addition).map Prod.fst = R.map Prod.fst ∧
    ∀ p ∈ into_del_add_obkv R deletion addition, ∃ v, (p.1, v) ∈ R ∧
      p.2.length = (if deletion then 1 else 0) + (if addition then 1 else 0) ∧
      ∀ e ∈ p.2, e.2 = v := by
  constructor
  · simp [into_del_add_obkv]
  · intro p hp
    rcases List.mem_map.mp hp with ⟨kv, hkv, rfl⟩
    exact ⟨kv.2, hkv, nestedEntries_length deletion addition kv.2,
      nestedEntries_snd deletion addition kv.2⟩

/-- Witness for C4 at Scenario 2 of the spec: annotating (5, x) with the
deletion flag only keeps the key list unchanged. -/
theorem C4_annotator_keys_witness :
    (into_del_add_obkv [((5:ℕ), (9:ℕ))] true false).map Prod.fst =
      [((5:ℕ), (9:ℕ))].map Prod.fst :=
  (C4_annotator_keys [((5:ℕ), (9:ℕ))] true false (by decide)).1

/-- C6: every nested record either operation emits lists its entries in
ascending tag order, and a two-entry nested record always has its Deletion
entry before its Addition entry. -/
theorem C6_nested_tag_order {K V : Type} [LinearOrder K] :
    (∀ (R : List (K × V)) (deletion addition : Bool),
      ∀ p ∈ into_del_add_obkv R deletion addition,
        (p.2.map Prod.fst).Pairwise DelAdd.lt ∧
          (p.2.length = 2 →
            p.2.map Prod.fst = [DelAdd.Deletion, DelAdd.Addition])) ∧
    (∀ D A : List (K × V), ∀ p ∈ del_add_from_two_obkvs D A,
      (p.2.map Prod.fst).Pairwise DelAdd.lt ∧
        (p.2.length = 2 →
          p.2.map Prod.fst = [DelAdd.Deletion, DelAdd.Addition])) := by
  constructor
  · intro R deletion addition p hp
    rcases List.mem_map.mp hp with ⟨kv, _, rfl⟩
    refine ⟨nestedEntries_tags deletion addition kv.2, fun hlen => ?_⟩
    cases deletion <;> cases addition <;> simp [nestedEntries] at hlen ⊢
  · intro D A p hp
    rcases del_add_nested_shape D A p hp with ⟨v, hv⟩ | ⟨v, hv⟩ | ⟨dv, av, hv⟩ <;>
      rw [hv]
    · exact ⟨by simp, by simp⟩
    · exact ⟨by simp, by simp⟩
    · exact ⟨by simp [DelAdd.lt, DelAdd.asU8], by simp⟩

/-- Witness for C6: the two-entry nested record for key 5 with both flags
set lists Deletion before Addition. -/
theorem C6_nested_tag_order_witness :
    ((5:ℕ), [(DelAdd.Deletion, (9:ℕ)), (DelAdd.Addition, 9)]).2.map Prod.fst =
      [DelAdd.Deletion, DelAdd.Addition] :=
  (C6_nested_tag_order.1 [((5:ℕ), (9:ℕ))] true true
    ((5:ℕ), [(DelAdd.Deletion, (9:ℕ)), (DelAdd.Addition, 9)]) (by decide)).2
    (by decide)

/-- C9: with both flags false the annotator keeps every field key, in
order, each mapped to a nested record with zero entries; in particular
annotating the single-field record (5, x) yields (5, empty record). -/
theorem C9_empty_flags {K V : Type} [LinearOrder K] :
    (∀ R : List (K × V), sortedAndUnique R →
      (into_del_add_obkv R false false).map Prod.fst = R.map Prod.fst ∧
        ∀ p ∈ into_del_add_obkv R false false, p.2 = []) ∧
    into_del_add_obkv [((5:ℕ), "x")] false false =
      [(5, ([] : List (DelAdd × String)))] := by
  refine ⟨fun R _ => ⟨by simp [into_del_add_obkv], fun p hp => ?_⟩, rfl⟩
  rcases List.mem_map.mp hp with ⟨kv, _, rfl⟩
  simp [nestedEntries]

/-- Witness for C9: the all-false annotation of (5, 9) keeps the key and
empties the nested record. -/
theorem C9_empty_flags_witness :
    (into_del_add_obkv [((5:ℕ), (9:ℕ))] false false).map Prod.fst =
      [((5:ℕ), (9:ℕ))].map Prod.fst :=
  (C9_empty_flags.1 [((5:ℕ), (9:ℕ))] (by decide)).1

/-- The Vec sink accepts every write. -/
theorem vecSink_rejectWrite (buf bytes : List ℕ) :
    vecSink.rejectWrite buf bytes = false := rfl

/-- The Vec sink accepts every flush. -/
theorem vecSink_rejectFlush (buf : List ℕ) :
    vecSink.rejectFlush buf = false := rfl

/-- The all-rejecting sink rejects every write. -/
theorem rejectAllSink_rejectWrite (buf bytes : List ℕ) :
    rejectAllSink.rejectWrite buf bytes = true := rfl

/-- The flush-rejecting sink accepts every write. -/
theorem rejectFlushSink_rejectWrite (buf bytes : List ℕ) :
    rejectFlushSink.rejectWrite buf bytes = false := rfl

/-- The flush-rejecting sink rejects every flush. -/
theorem rejectFlushSink_rejectFlush (buf : List ℕ) :
    rejectFlushSink.rejectFlush buf = true := rfl

/-- Running the annotator through the always-accepting in-memory sink
appends the serialized record after the existing buffer contents. -/
theorem into_del_add_obkv_sink_vec (deletion addition : Bool) :
    ∀ (reader : List (ℕ × List ℕ)) (buf : List ℕ),
      into_del_add_obkv_sink vecSink deletion addition reader buf =
        WOut.ok (buf ++ into_del_add_obkv_bytes deletion addition reader) := by
  intro reader
  induction reader with
  | nil =>
      intro buf
      simp [into_del_add_obkv_sink, vecSink_rejectFlush, into_del_add_obkv_bytes]
  | cons kv rest ih =>
      intro buf
      obtain ⟨k, v⟩ := kv
      simp [into_del_add_obkv_sink, vecSink_rejectWrite, into_del_add_obkv_bytes, ih]

/-- Running the merger through the always-accepting in-memory sink appends
the serialized merged record after the existing buffer contents. -/
theorem del_add_from_two_obkvs_sink_vec :
    ∀ (D A : List (ℕ × List ℕ)) (buf : List ℕ),
      del_add_from_two_obkvs_sink vecSink D A buf =
        WOut.ok (buf ++ del_add_from_two_obkvs_bytes D A) := by
  intro D A
  induction D, A using del_add_from_two_obkvs.induct with
  | case1 =>
      intro buf
      simp [del_add_from_two_obkvs_sink, vecSink_rejectWrite, vecSink_rejectFlush,
        del_add_from_two_obkvs_bytes,
        del_add_from_two_obkvs]
  | case2 ka va a ih =>
      intro buf
      simp [del_add_from_two_obkvs_sink, vecSink_rejectWrite, vecSink_rejectFlush,
        del_add_from_two_obkvs_bytes,
        del_add_from_two_obkvs, ih]
  | case3 kd vd d ih =>
      intro buf
      simp [del_add_from_two_obkvs_sink, vecSink_rejectWrite, vecSink_rejectFlush,
        del_add_from_two_obkvs_bytes,
        del_add_from_two_obkvs, ih]
  | case4 kd vd d ka va a h ih =>
      intro buf
      simp [del_add_from_two_obkvs_sink, vecSink_rejectWrite, vecSink_rejectFlush,
        del_add_from_two_obkvs_bytes,
        del_add_from_two_obkvs, h, ih]
  | case5 kd vd d ka va a h1 h2 ih =>
      intro buf
      simp [del_add_from_two_obkvs_sink, vecSink_rejectWrite, vecSink_rejectFlush,
        del_add_from_two_obkvs_bytes,
        del_add_from_two_obkvs, h1, h2, ih]
  | case6 kd vd d ka va a h1 h2 ih =>
      intro buf
      simp [del_add_from_two_obkvs_sink, vecSink_rejectWrite, vecSink_rejectFlush,
        del_add_from_two_obkvs_bytes,
        del_add_from_two_obkvs, h1, h2, ih]

/-- The annotator never traps: each of its fallible calls is propagated. -/
theorem into_del_add_obkv_sink_no_panic (s : ByteSink)
    (deletion addition : Bool) :
    ∀ (reader : List (ℕ × List ℕ)) (buf : List ℕ),
      into_del_add_obkv_sink s deletion addition reader buf ≠
        WOut.panicked := by
  intro reader
  induction reader with
  | nil =>
      intro buf
      cases hf : s.rejectFlush buf <;> simp [into_del_add_obkv_sink, hf]
  | cons kv rest ih =>
      intro buf
      obtain ⟨k, v⟩ := kv
      cases hw : s.rejectWrite buf
        (entryBytes k (nestedEntries deletion addition v)) with
      | false => simpa [into_del_add_obkv_sink, hw] using ih _
      | true => simp [into_del_add_obkv_sink, hw]

/-- A rejected insert write makes the annotator return an ordinary error. -/
theorem into_del_add_obkv_sink_reject (deletion addition : Bool)
    (reader : List (ℕ × List ℕ)) (buf : List ℕ) (h : reader ≠ []) :
    into_del_add_obkv_sink rejectAllSink deletion addition reader buf =
      WOut.err := by
  cases reader with
  | nil => exact absurd rfl h
  | cons kv rest =>
      obtain ⟨k, v⟩ := kv
      simp [into_del_add_obkv_sink, rejectAllSink]

/-- A rejected insert write makes the merger trap: the first insert of the
walk is unwrapped. -/
theorem del_add_sink_reject_panics (D A : List (ℕ × List ℕ))
    (buf : List ℕ) (h : D ≠ [] ∨ A ≠ []) :
    del_add_from_two_obkvs_sink rejectAllSink D A buf = WOut.panicked := by
  match D, A with
  | [], [] =>
      rcases h with h | h <;> exact absurd rfl h
  | [], (ka, va) :: a =>
      simp [del_add_from_two_obkvs_sink, rejectAllSink]
  | (kd, vd) :: d, [] =>
      simp [del_add_from_two_obkvs_sink, rejectAllSink]
  | (kd, vd) :: d, (ka, va) :: a =>
      rcases lt_trichotomy kd ka with hlt | heq | hgt
      · simp [del_add_from_two_obkvs_sink, rejectAllSink, hlt]
      · subst heq
        simp [del_add_from_two_obkvs_sink, rejectAllSink, lt_irrefl]
      · simp [del_add_from_two_obkvs_sink, rejectAllSink, hgt, lt_asymm hgt]

/-- The merger returns a failure of the final flush as an ordinary error. -/
theorem del_add_sink_flush_err :
    ∀ (D A : List (ℕ × List ℕ)) (buf : List ℕ),
      del_add_from_two_obkvs_sink rejectFlushSink D A buf = WOut.err := by
  intro D A
  induction D, A using del_add_from_two_obkvs.induct with
  | case1 =>
      intro buf
      simp [del_add_from_two_obkvs_sink, rejectFlushSink_rejectFlush]
  | case2 ka va a ih =>
      intro buf
      simp [del_add_from_two_obkvs_sink, rejectFlushSink_rejectWrite,
        rejectFlushSink_rejectFlush, ih]
  | case3 kd vd d ih =>
      intro buf
      simp [del_add_from_two_obkvs_sink, rejectFlushSink_rejectWrite,
        rejectFlushSink_rejectFlush, ih]
  | case4 kd vd d ka va a h ih =>
      intro buf
      simp [del_add_from_two_obkvs_sink, rejectFlushSink_rejectWrite,
        rejectFlushSink_rejectFlush, h, ih]
  | case5 kd vd d ka va a h1 h2 ih =>
      intro buf
      simp [del_add_from_two_obkvs_sink, rejectFlushSink_rejectWrite,
        rejectFlushSink_rejectFlush, h1, h2, ih]
  | case6 kd vd d ka va a h1 h2 ih =>
      intro buf
      simp [del_add_from_two_obkvs_sink, rejectFlushSink_rejectWrite,
        rejectFlushSink_rejectFlush, h1, h2, ih]

/-- Counterexample to C5 as stated: a sink that rejects the write of the
first merged entry makes del_add_from_two_obkvs trap (the source unwraps
the insert result) instead of returning the failure as an error value. -/
theorem C5_counterexample :
    del_add_from_two_obkvs_sink rejectAllSink [(1, [7])] [] [] =
      WOut.panicked := by
  simp [del_add_from_two_obkvs_sink, rejectAllSink]

/-- C5 amended: into_del_add_obkv propagates every rejected write to the
caller as an ordinary error and never traps, while del_add_from_two_obkvs
propagates only a failure of the final flush as an ordinary error and
converts a rejected insert write into a trap. -/
theorem C5_write_failure_propagation (s : ByteSink)
    (deletion addition : Bool) (reader D A : List (ℕ × List ℕ))
    (buf : List ℕ) :
    into_del_add_obkv_sink s deletion addition reader buf ≠
      WOut.panicked ∧
    (reader ≠ [] →
      into_del_add_obkv_sink rejectAllSink deletion addition reader buf =
        WOut.err) ∧
    ((D ≠ [] ∨ A ≠ []) →
      del_add_from_two_obkvs_sink rejectAllSink D A buf = WOut.panicked) ∧
    del_add_from_two_obkvs_sink rejectFlushSink D A buf = WOut.err :=
  ⟨into_del_add_obkv_sink_no_panic s deletion addition reader buf,
    into_del_add_obkv_sink_reject deletion addition reader buf,
    del_add_sink_reject_panics D A buf,
    del_add_sink_flush_err D A buf⟩

/-- Witness for C5 amended: the annotator surfaces a rejected first write
as an ordinary error value. -/
theorem C5_write_failure_propagation_witness :
    into_del_add_obkv_sink rejectAllSink true true [(1, [7])] [] =
      WOut.err :=
  (C5_write_failure_propagation rejectAllSink true true [(1, [7])] [] []
    []).2.1 (by decide)

/-- C8: through the in-memory sink that accepts every write, the merger
completes successfully on any pair of sorted key-unique records, the empty
ones included. -/
theorem C8_merge_totality (D A : List (ℕ × List ℕ)) (buf : List ℕ)
    (_hD : sortedAndUnique D) (_hA : sortedAndUnique A) :
    ∃ out, del_add_from_two_obkvs_sink vecSink D A buf = WOut.ok out :=
  ⟨buf ++ del_add_from_two_obkvs_bytes D A,
    del_add_from_two_obkvs_sink_vec D A buf⟩

/-- Witness for C8: a one-entry deletion record against an empty addition
record merges successfully. -/
theorem C8_merge_totality_witness :
    ∃ out, del_add_from_two_obkvs_sink vecSink [(1, [7])] [] [] =
      WOut.ok out :=
  C8_merge_totality [(1, [7])] [] [] (by decide) (by decide)

/-- C10: neither operation clears the caller buffer: through the
always-accepting in-memory sink, each leaves the pre-existing bytes in
place and appends the serialized record (the bytes a cleared buffer would
receive) after them. -/
theorem C10_buffer_not_cleared (deletion addition : Bool)
    (reader D A : List (ℕ × List ℕ)) (buf : List ℕ) :
    into_del_add_obkv_sink vecSink deletion addition reader buf =
      WOut.ok (buf ++ into_del_add_obkv_bytes deletion addition reader) ∧
    into_del_add_obkv_sink vecSink deletion addition reader [] =
      WOut.ok (into_del_add_obkv_bytes deletion addition reader) ∧
    del_add_from_two_obkvs_sink vecSink D A buf =
      WOut.ok (buf ++ del_add_from_two_obkvs_bytes D A) ∧
    del_add_from_two_obkvs_sink vecSink D A [] =
      WOut.ok (del_add_from_two_obkvs_bytes D A) := by
  refine ⟨into_del_add_obkv_sink_vec deletion addition reader buf, ?_,
    del_add_from_two_obkvs_sink_vec D A buf, ?_⟩
  · simpa using into_del_add_obkv_sink_vec deletion addition reader []
  · simpa using del_add_from_two_obkvs_sink_vec D A []
